import Mathlib

/-!
Verification of the wavespeed-comfyui classification-and-assembly pipeline.

The development shallowly embeds the pure logic of the repository:
tensor-shape media-kind detection, output classification and selection,
parameter assembly (array reconstruction, merging, filtering, width/height
validation) and credential resolution.  Network effects (uploads, HTTP)
are modelled by explicit oracle parameters; tensors are opaque handles.
-/

/- ## Character and string utilities (model of Python lower/in/startswith) -/

/-- Lowercased character list of a string, modelling the Python lower method
(inputs of interest are ASCII). -/
def lowerChars (s : String) : List Char := s.toList.map Char.toLower

/-- Boolean prefix test on character lists. -/
def isPrefixChars : List Char → List Char → Bool
  | [], _ => true
  | _ :: _, [] => false
  | a :: as, b :: bs => a = b && isPrefixChars as bs

/-- Boolean substring containment, modelling the Python operator in:
containsChars hay needle is true when needle occurs contiguously in hay. -/
def containsChars (hay needle : List Char) : Bool :=
  match hay with
  | [] => needle.isEmpty
  | _ :: t => isPrefixChars needle hay || containsChars t needle

/-- Python s.startswith(p) on strings. -/
def strStartsWith (s p : String) : Bool := isPrefixChars p.toList s.toList

/-- Python needle in hay.lower(). -/
def containsLower (hay needle : String) : Bool :=
  containsChars (lowerChars hay) needle.toList

/-- Python s.endswith(suf), via the reversed character lists. -/
def strEndsWithU (s suf : String) : Bool :=
  isPrefixChars suf.toList.reverse s.toList.reverse

/-- Characters other than the underscore. -/
def notUnderscore (c : Char) : Bool := c ≠ '_'

/-- Python s.strip(): leading and trailing whitespace removed. -/
def pyStrip (s : String) : String :=
  String.mk (((s.toList.dropWhile Char.isWhitespace).reverse.dropWhile
    Char.isWhitespace).reverse)

/-- Python s.split on a comma, keeping empty pieces, on character lists. -/
def splitCommaChars : List Char → List Char → List String
  | [], acc => [String.mk acc.reverse]
  | c :: t, acc =>
    if c = ',' then String.mk acc.reverse :: splitCommaChars t []
    else splitCommaChars t (c :: acc)

/-- Python s.split with a comma separator. -/
def pySplitComma (s : String) : List String := splitCommaChars s.toList []

theorem isPrefixChars_iff (p l : List Char) :
    isPrefixChars p l = true ↔ ∃ t, l = p ++ t := by
  induction p generalizing l with
  | nil => simp [isPrefixChars]
  | cons a as ih =>
    cases l with
    | nil => simp [isPrefixChars]
    | cons b bs =>
      simp only [isPrefixChars, Bool.and_eq_true, decide_eq_true_eq, ih]
      constructor
      · rintro ⟨rfl, t, rfl⟩; exact ⟨t, rfl⟩
      · rintro ⟨t, h⟩
        obtain ⟨h1, h2⟩ := List.cons_eq_cons.mp h
        exact ⟨h1.symm, t, h2⟩

theorem containsChars_iff (hay needle : List Char) :
    containsChars hay needle = true ↔ ∃ pre post, hay = pre ++ needle ++ post := by
  induction hay with
  | nil =>
    simp only [containsChars, List.isEmpty_iff]
    constructor
    · rintro rfl; exact ⟨[], [], rfl⟩
    · rintro ⟨pre, post, h⟩
      rcases List.append_eq_nil.mp (List.append_eq_nil.mp h.symm).1 with ⟨_, h2⟩
      exact h2
  | cons c t ih =>
    simp only [containsChars, Bool.or_eq_true, isPrefixChars_iff, ih]
    constructor
    · rintro (⟨s, hs⟩ | ⟨pre, post, h⟩)
      · exact ⟨[], s, by simpa using hs⟩
      · exact ⟨c :: pre, post, by simp [h]⟩
    · rintro ⟨pre, post, h⟩
      cases pre with
      | nil => exact Or.inl ⟨post, by simpa using h⟩
      | cons p ps =>
        right
        refine ⟨ps, post, ?_⟩
        have := List.cons_eq_cons.mp (by simpa using h)
        simpa [List.append_assoc] using this.2

/- ## MediaKindClassifier: detect_tensor_type (wavespeed_predictor.py lines 30 to 116) -/

/-- Media kind inferred for a tensor shape. -/
inductive MediaKind where
  | image
  | video
  | audio
  deriving DecidableEq, Repr

/-- Embedding of detect_tensor_type: classifies a tensor purely by its shape,
following the source branch order (rank 2, 3, 4, 5, 1, default). -/
def detect_tensor_type (shape : List Nat) : MediaKind :=
  match shape with
  | [s0, s1] =>
    if s0 < 10 ∧ s1 > 1000 then .audio
    else if s1 < 10 ∧ s0 > 1000 then .audio
    else .image
  | [s0, s1, s2] =>
    if (s2 = 1 ∨ s2 = 3 ∨ s2 = 4) ∧ s0 > 10 ∧ s1 > 10 then .image
    else if (s0 = 1 ∨ s0 = 3 ∨ s0 = 4) ∧ s1 > 10 ∧ s2 > 10 then .image
    else if s0 < 10 ∧ s2 > 1000 then .audio
    else .image
  | [s0, _, _, _] => if s0 > 10 then .video else .image
  | [_, _, _, _, _] => .video
  | [_] => .audio
  | _ => .image

/-- Decision table written from the words of the specification, section 4.1,
for comparison with the source embedding. -/
def classifySpecTable (shape : List Nat) : MediaKind :=
  match shape with
  | [_] => .audio
  | [a, b] =>
    if (a < 10 ∧ b > 1000) ∨ (b < 10 ∧ a > 1000) then .audio else .image
  | [a, b, c] =>
    if (c = 1 ∨ c = 3 ∨ c = 4) ∧ a > 10 ∧ b > 10 then .image
    else if (a = 1 ∨ a = 3 ∨ a = 4) ∧ b > 10 ∧ c > 10 then .image
    else if a < 10 ∧ c > 1000 then .audio
    else .image
  | [a, _, _, _] => if a > 10 then .video else .image
  | [_, _, _, _, _] => .video
  | _ => .image

/- ## URL kind predicates (wavespeed_predictor.py lines 1141 to 1171) -/

/-- Video extension token set of the predictor. -/
def videoExtTokens : List String := [".mp4", ".mov", ".avi", ".mkv", ".webm"]

/-- Image extension token set of the predictor. -/
def imageExtTokens : List String := [".jpg", ".jpeg", ".png", ".gif", ".webp"]

/-- Audio extension token set of the predictor. -/
def audioExtTokens : List String := [".mp3", ".wav", ".m4a", ".flac"]

/-- Nine-element 3-D model extension token set used by the predictor helper. -/
def model3dExtTokens : List String :=
  [".glb", ".gltf", ".obj", ".ply", ".fbx", ".stl", ".usdz", ".dae", ".3ds"]

/-- Embedding of the predictor helper checking for a video URL by substring. -/
def is_video_url (url : String) : Bool :=
  videoExtTokens.any (fun ext => containsLower url ext)

/-- Embedding of the predictor helper checking for an image URL by substring. -/
def is_image_url (url : String) : Bool :=
  imageExtTokens.any (fun ext => containsLower url ext)

/-- Embedding of the predictor helper checking for an audio URL by substring. -/
def is_audio_url (url : String) : Bool :=
  audioExtTokens.any (fun ext => containsLower url ext)

/-- Embedding of the predictor helper checking for a 3-D model URL by substring. -/
def is_3d_model_url (url : String) : Bool :=
  model3dExtTokens.any (fun ext => containsLower url ext)

/- ## Output items and smart output selection (lines 1077 to 1139) -/

/-- One element of the raw output list returned by the remote job.  A string
item carries its text; a structured item carries the text its json dump
would produce; any other scalar carries the text its str form would produce. -/
inductive OutItem where
  | str (s : String)
  | structured (dump : String)
  | scalar (txt : String)
  deriving DecidableEq, Repr

/-- The value returned by the smart output selection: nothing, a single raw
item, the full raw list, or a list of matched image URL strings. -/
inductive Selected where
  | nothing
  | item (o : OutItem)
  | items (l : List OutItem)
  | urls (l : List String)
  deriving DecidableEq, Repr

/-- True when the item is a string that is a 3-D model URL. -/
def outIs3d (o : OutItem) : Bool :=
  match o with
  | .str s => is_3d_model_url s
  | _ => false

/-- True when the item is a string that is a video URL. -/
def outIsVideo (o : OutItem) : Bool :=
  match o with
  | .str s => is_video_url s
  | _ => false

/-- True when the item is a string that is an audio URL. -/
def outIsAudio (o : OutItem) : Bool :=
  match o with
  | .str s => is_audio_url s
  | _ => false

/-- True when the item is not a string starting with http or https, which is
the priority-four condition of the selection loop. -/
def outIsNonHttp (o : OutItem) : Bool :=
  match o with
  | .str s => !(strStartsWith s "http://" || strStartsWith s "https://")
  | _ => true

/-- First item of the list satisfying the predicate, mirroring the for loops
with early return in the selection code. -/
def firstWhere (p : OutItem → Bool) : List OutItem → Option OutItem
  | [] => none
  | o :: t => if p o then some o else firstWhere p t

/-- Image URL strings of the list, in order, mirroring the comprehension
collecting string items that match the image extension set. -/
def imageUrlsOf (raw : List OutItem) : List String :=
  raw.filterMap (fun o =>
    match o with
    | .str s => if is_image_url s then some s else none
    | _ => none)

/-- Embedding of the predictor method select smart output, translated branch
by branch from the source: empty list, singleton, 3-D bundling check, then
the video, image, audio, non-URL and first-item priorities. -/
def select_smart_output (raw : List OutItem) : Selected :=
  match raw with
  | [] => .nothing
  | [o] => .item o
  | a :: b :: t =>
    let raw := a :: b :: t
    if raw.any outIs3d then .items raw
    else
      match firstWhere outIsVideo raw with
      | some o => .item o
      | none =>
        match imageUrlsOf raw with
        | [u] => .item (.str u)
        | [] =>
          match firstWhere outIsAudio raw with
          | some o => .item o
          | none =>
            match firstWhere outIsNonHttp raw with
            | some o => .item o
            | none => .item a
        | us => .urls us

/-- Primary selection rules written from the words of the specification,
section 4.4, using library first-match and filter operations, for comparison
with the source embedding. -/
def selectPrimarySpec (raw : List OutItem) : Selected :=
  match raw with
  | [] => .nothing
  | [o] => .item o
  | _ =>
    if raw.any outIs3d then .items raw
    else
      match raw.find? outIsVideo with
      | some o => .item o
      | none =>
        let imgs := imageUrlsOf raw
        if imgs.length = 1 then .item (.str (imgs.headD ""))
        else if imgs.length > 1 then .urls imgs
        else
          match raw.find? outIsAudio with
          | some o => .item o
          | none =>
            match raw.find? outIsNonHttp with
            | some o => .item o
            | none => .item (raw.headD (.str ""))

/- ## WaveSpeedOutputProcessor.process_outputs (lines 575 to 649) -/

/-- Video token test inlined in the output processor loop (same literal list
as the predictor helper, duplicated in the source). -/
def procHasVideoExt (s : String) : Bool :=
  [".mp4", ".mov", ".avi", ".mkv", ".webm"].any (fun ext => containsLower s ext)

/-- Image token test inlined in the output processor loop. -/
def procHasImageExt (s : String) : Bool :=
  [".jpg", ".jpeg", ".png", ".gif", ".webp"].any (fun ext => containsLower s ext)

/-- Audio token test inlined in the output processor loop. -/
def procHasAudioExt (s : String) : Bool :=
  [".mp3", ".wav", ".m4a", ".flac"].any (fun ext => containsLower s ext)

/-- Three-D token test inlined in the output processor loop: the source lists
only six extensions here, fewer than the predictor helper. -/
def procHasModel3dExt (s : String) : Bool :=
  [".glb", ".gltf", ".obj", ".ply", ".fbx", ".stl"].any (fun ext => containsLower s ext)

/-- Text-branch condition of the processor loop: the string does not start
with any of the listed URL schemes. -/
def procIsPlainText (s : String) : Bool :=
  !(strStartsWith s "http://" || strStartsWith s "https://" ||
    strStartsWith s "ftp://" || strStartsWith s "data:")

/-- Mutable loop state of the output processor. -/
structure POState where
  video_url : String
  images : List String
  audio_url : String
  text : String
  model_3d_url : String
  deriving DecidableEq, Repr

/-- Initial state of the output processor loop. -/
def poInit : POState :=
  { video_url := "", images := [], audio_url := "", text := "", model_3d_url := "" }

/-- One iteration of the output processor loop, translated from the
if-elif chain of the source. -/
def poStep (st : POState) (o : OutItem) : POState :=
  match o with
  | .str s =>
    if procHasVideoExt s then
      if st.video_url = "" then { st with video_url := s } else st
    else if procHasImageExt s then
      { st with images := st.images ++ [s] }
    else if procHasAudioExt s then
      if st.audio_url = "" then { st with audio_url := s } else st
    else if procHasModel3dExt s then
      if st.model_3d_url = "" then { st with model_3d_url := s } else st
    else
      if st.text = "" && procIsPlainText s then { st with text := s } else st
  | .structured dump =>
    if st.text = "" then { st with text := dump } else st
  | .scalar txt =>
    if st.text = "" then { st with text := txt } else st

/-- Result record of the output processor.  The image field stands for the
image tensor slot: none models the Python None, and some urls models the
tensor produced by converting exactly those image URLs (the conversion
itself downloads and decodes pixels and is kept opaque here). -/
structure ProcessedOutputs where
  video_url : String
  image : Option (List String)
  audio_url : String
  text : String
  first_image_url : String
  image_urls : List String
  model_3d_url : String
  deriving DecidableEq, Repr

/-- Embedding of WaveSpeedOutputProcessor.process_outputs: runs the
classification loop, then suppresses tensor conversion when a 3-D model URL
was found, and exposes the collected image URLs either way. -/
def process_outputs (outputs : List OutItem) : ProcessedOutputs :=
  let st := outputs.foldl poStep poInit
  let has3d := st.model_3d_url ≠ ""
  let image := if has3d then none
               else if st.images ≠ [] then some st.images else none
  let first_image_url := if st.images ≠ [] then st.images.headD "" else ""
  let image_urls := if st.images ≠ [] then st.images else []
  { video_url := st.video_url, image := image, audio_url := st.audio_url,
    text := st.text, first_image_url := first_image_url,
    image_urls := image_urls, model_3d_url := st.model_3d_url }

/- ## Value universe for request payloads (predictor generate, lines 772 to 1031) -/

/-- Python values flowing through parameter assembly: None, strings, integer
numbers, booleans, lists, and tensors (opaque handles identified by a number;
the pipeline only ever forwards a tensor to the upload path).  Dict-valued
inputs (audio dicts, lora objects) lie outside this modelled universe. -/
inductive Val where
  | vnull
  | vstr (s : String)
  | vint (n : Int)
  | vbool (b : Bool)
  | vlist (l : List Val)
  | vtensor (t : Nat)

mutual

/-- Model of the Python repr of a value, used by str on containers. -/
def pyRepr : Val → String
  | .vnull => "None"
  | .vstr s => "\x27" ++ s ++ "\x27"
  | .vint n => toString n
  | .vbool b => if b then "True" else "False"
  | .vtensor t => "tensor" ++ toString t
  | .vlist l => "[" ++ pyReprList l ++ "]"

/-- Comma-separated reprs of list members. -/
def pyReprList : List Val → String
  | [] => ""
  | [v] => pyRepr v
  | v :: rest => pyRepr v ++ ", " ++ pyReprList rest

end

/-- Model of Python str applied to a value. -/
def pyStr : Val → String
  | .vstr s => s
  | v => pyRepr v

/-- Python truthiness of a value. -/
def pyTruthy : Val → Bool
  | .vnull => false
  | .vstr s => s ≠ ""
  | .vint n => n ≠ 0
  | .vbool b => b
  | .vlist l => !l.isEmpty
  | .vtensor _ => true

/-- Python test value is None. -/
def isNoneVal : Val → Bool
  | .vnull => true
  | _ => false

/-- Python equality test against the empty string: true only for the empty
string itself (numbers, booleans and lists never equal a string). -/
def eqEmptyStrVal : Val → Bool
  | .vstr s => s = ""
  | _ => false

/-- Python equality test against the empty list: true only for the empty
list itself. -/
def eqEmptyListVal : Val → Bool
  | .vlist l => l.isEmpty
  | _ => false

/-- Dictionaries are modelled as ordered association lists with unique keys,
matching insertion-ordered Python dicts. -/
def dictHasKey (d : List (String × Val)) (k : String) : Bool :=
  d.any (fun p => p.1 = k)

/-- Python d[k] = v on the association-list dict: updates in place when the
key exists, appends otherwise. -/
def dictSet (d : List (String × Val)) (k : String) (v : Val) : List (String × Val) :=
  if dictHasKey d k then d.map (fun p => if p.1 = k then (k, v) else p)
  else d ++ [(k, v)]

/-- Python d.get(k) on the association-list dict. -/
def dictGet (d : List (String × Val)) (k : String) : Option Val :=
  (d.find? (fun p => p.1 = k)).map (fun p => p.2)

/- ## Type coercion: convert_parameter_value (lines 429 to 567) -/

/-- Numeric value of a digit list. -/
def digitsToNat (l : List Char) : Nat :=
  l.foldl (fun n c => n * 10 + (c.toNat - 48)) 0

/-- Model of Python float parsing restricted to optionally signed integer
literals with surrounding whitespace; fractional and exponent literals lie
outside the modelled numeric universe. -/
def intLitParse (s : String) : Option Int :=
  match (pyStrip s).toList with
  | '-' :: ds => if ds ≠ [] ∧ ds.all Char.isDigit then some (-(digitsToNat ds : Int)) else none
  | '+' :: ds => if ds ≠ [] ∧ ds.all Char.isDigit then some ((digitsToNat ds : Int)) else none
  | ds => if ds ≠ [] ∧ ds.all Char.isDigit then some ((digitsToNat ds : Int)) else none

/-- Model of Python float applied to a value of the universe: numbers map to
themselves, parseable strings to their numeric value, everything else fails.
A boolean converts to zero or one, as in the source language. -/
def pyFloatOf : Val → Option Val
  | .vint n => some (.vint n)
  | .vbool b => some (.vint (if b then 1 else 0))
  | .vstr s => (intLitParse s).map Val.vint
  | _ => none

/-- Python isinstance of int or float; booleans are instances of int. -/
def isPyNumber : Val → Bool
  | .vint _ => true
  | .vbool _ => true
  | _ => false

/-- Comma split with strip and empty-piece removal, as in the array-str
string branch. -/
def splitCommaStrip (s : String) : List String :=
  ((pySplitComma s).map pyStrip).filter (fun t => t ≠ "")

/-- Embedding of convert_parameter_value.  The lora-weight branch of the
source builds dict-valued lora objects; dict values lie outside the modelled
value universe, so that branch is abstracted to the falsy empty-list result
(no claim exercises lora-weight coercion). -/
def convert_parameter_value (value : Val) (param_type : String) : Val :=
  if param_type = "array-str" then
    match value with
    | .vlist l => .vlist (l.map (fun item => .vstr (pyStr item)))
    | .vstr s => .vlist ((splitCommaStrip s).map Val.vstr)
    | v => .vlist [.vstr (pyStr v)]
  else if param_type = "array-int" then
    match value with
    | .vlist l =>
      .vlist (l.map (fun item =>
        if isPyNumber item then item
        else match pyFloatOf item with
          | some w => w
          | none => .vstr (pyStr item)))
    | .vstr s =>
      .vlist ((splitCommaStrip s).map (fun item =>
        match intLitParse item with
        | some n => Val.vint n
        | none => .vstr item))
    | v =>
      match pyFloatOf v with
      | some w => .vlist [w]
      | none => .vlist [.vstr (pyStr v)]
  else if param_type = "lora-weight" then
    .vlist []
  else if param_type = "number" then
    if isPyNumber value then value
    else match pyFloatOf value with
      | some w => w
      | none => value
  else
    match value with
    | .vnull => .vstr ""
    | v => .vstr (pyStr v)

/- ## Array member reconstruction (generate, step 2a, lines 879 to 982) -/

/-- Parameter descriptor from the param metadata map. -/
structure ParamInfo where
  isArray : Bool
  itemType : String
  deriving DecidableEq, Repr

/-- Singular stem of an array parameter name: one trailing s stripped. -/
def singularStem (name : String) : String :=
  if strEndsWithU name "s" then String.mk name.toList.dropLast else name

/-- Python rstrip with the character s: drops the whole trailing run of s,
as used by the step 2b skip condition. -/
def rstripAllS (name : String) : String :=
  String.mk ((name.toList.reverse.dropWhile (fun c => c = 's')).reverse)

/-- Strips the given literal from the front, returning the remainder. -/
def dropPrefixChars : List Char → List Char → Option (List Char)
  | [], l => some l
  | _ :: _, [] => none
  | a :: as, b :: bs => if a = b then dropPrefixChars as bs else none

/-- One optional leading underscore stripped, as the member regex allows. -/
def stripOneUnderscore : List Char → List Char
  | '_' :: t => t
  | r => r

/-- Model of the member regex of step 2a: the stem, one optional underscore,
then one or more digits to the end; yields the parsed index. -/
def matchMemberKey (stem key : String) : Option Nat :=
  match dropPrefixChars stem.toList key.toList with
  | none => none
  | some rest =>
    let rest2 := stripOneUnderscore rest
    if rest2 ≠ [] ∧ rest2.all Char.isDigit then some (digitsToNat rest2) else none

/-- Members discovered for one array parameter: connected inputs whose key
matches the member regex, with null and empty-string values skipped, in
input order, paired with their parsed index. -/
def collectMembers (stem : String) (kwargs : List (String × Val)) : List (Nat × Val) :=
  kwargs.filterMap (fun kv =>
    match matchMemberKey stem kv.1 with
    | some i =>
      if isNoneVal kv.2 || eqEmptyStrVal kv.2 then none else some (i, kv.2)
    | none => none)

/-- Stable insertion into an index-sorted member list: a new member goes
after every existing member with an index less than or equal to its own. -/
def insertByIdx (m : Nat × Val) : List (Nat × Val) → List (Nat × Val)
  | [] => [m]
  | n :: t => if m.1 < n.1 then m :: n :: t else n :: insertByIdx m t

/-- Stable sort of members by ascending index, modelling the list sort with
an index key. -/
def sortMembers (l : List (Nat × Val)) : List (Nat × Val) :=
  l.foldl (fun acc m => insertByIdx m acc) []

/-- One iteration of the member conversion loop: a tensor member is uploaded
through the oracle and skipped on failure (the source logs and continues);
any other member is coerced by the declared item type and appended only when
the coerced value is truthy. -/
def memberStep (upload : Nat → Option String) (itemType : String)
    (acc : List Val) (m : Nat × Val) : List Val :=
  match m.2 with
  | .vtensor t =>
    match upload t with
    | some url => acc ++ [.vstr url]
    | none => acc
  | v =>
    let c := convert_parameter_value v itemType
    if pyTruthy c then acc ++ [c] else acc

/-- Final value list for one array parameter: collect, sort by index, then
run the conversion loop. -/
def mergeArrayMembers (upload : Nat → Option String) (itemType stem : String)
    (kwargs : List (String × Val)) : List Val :=
  (sortMembers (collectMembers stem kwargs)).foldl (memberStep upload itemType) []

/-- Step 2a over all declared array parameters: each parameter with a
nonempty reconstructed value list overwrites its request field; an empty
list leaves any default in place. -/
def applyArrayParams (upload : Nat → Option String) (meta : List (String × ParamInfo))
    (kwargs req : List (String × Val)) : List (String × Val) :=
  (meta.filter (fun p => p.2.isArray)).foldl (fun req p =>
    let vals := mergeArrayMembers upload p.2.itemType (singularStem p.1) kwargs
    if !vals.isEmpty then dictSet req p.1 (Val.vlist vals) else req) req

/- ## Step 1.5: scalar tensor uploads (lines 823 to 877) -/

/-- Step 1.5 of generate: every tensor-valued connected input is uploaded and
replaced by its URL in both the kwargs and the request defaults; an upload
failure raises a value error naming the field (the appended exception detail
of the source message is omitted), aborting the whole assembly.  Audio-dict
and callable inputs lie outside the modelled value universe. -/
def processUploads (upload : Nat → Option String) :
    List (String × Val) → List (String × Val) →
    Except String (List (String × Val) × List (String × Val))
  | [], req => .ok ([], req)
  | (k, v) :: rest, req =>
    match v with
    | .vtensor t =>
      match upload t with
      | some url =>
        match processUploads upload rest (dictSet req k (.vstr url)) with
        | .ok (ks, req2) => .ok ((k, Val.vstr url) :: ks, req2)
        | .error e => .error e
      | none => .error ("Failed to upload tensor for \x27" ++ k ++ "\x27")
    | _ =>
      match processUploads upload rest req with
      | .ok (ks, req2) => .ok ((k, v) :: ks, req2)
      | .error e => .error e

/- ## Step 2b: merging connected inputs (lines 984 to 1000) -/

/-- Skip condition of step 2b: the key starts with an array parameter name
stripped of every trailing s followed by an underscore. -/
def arraySkipKey (arrayNames : List String) (k : String) : Bool :=
  arrayNames.any (fun an => strStartsWith k (rstripAllS an ++ "_"))

/-- One iteration of the merge loop: skipped keys leave the payload alone;
connected values that are neither None nor the empty string overwrite the
default for the same field. -/
def mergeStep (arrayNames : List String) (merged : List (String × Val))
    (kv : String × Val) : List (String × Val) :=
  if arraySkipKey arrayNames kv.1 then merged
  else if !(isNoneVal kv.2) && !(eqEmptyStrVal kv.2) then dictSet merged kv.1 kv.2
  else merged

/-- Step 2b: defaults first, then the connected inputs in order. -/
def mergeConnected (arrayNames : List String)
    (req kwargs : List (String × Val)) : List (String × Val) :=
  kwargs.foldl (mergeStep arrayNames) req

/- ## Filtering pass (lines 1002 to 1011) -/

/-- Condition on which a field is dropped: empty string, empty list, None. -/
def isEmptyVal (v : Val) : Bool :=
  eqEmptyStrVal v || eqEmptyListVal v || isNoneVal v

/-- The filtering pass before dispatch. -/
def filterParams (d : List (String × Val)) : List (String × Val) :=
  d.filter (fun kv => !(isEmptyVal kv.2))

/- ## Width and height pairing validation (lines 1013 to 1031) -/

/-- Python rsplit on the last underscore, returning the parts before and
after it; a key without an underscore is unreachable under the suffix guard
of the caller. -/
def rsplitUnderscore (key : String) : String × String :=
  let r := key.toList.reverse
  let after := r.takeWhile notUnderscore
  let rest := r.dropWhile notUnderscore
  match rest with
  | _ :: before => (String.mk before.reverse, String.mk after.reverse)
  | [] => ("", key)

/-- Records for one group the presence of its width and height halves. -/
def updateSizeGroup (groups : List (String × Bool × Bool)) (name comp : String) :
    List (String × Bool × Bool) :=
  if groups.any (fun g => g.1 = name) then
    groups.map (fun g =>
      if g.1 = name then (name, (g.2.1 || comp == "width", g.2.2 || comp == "height"))
      else g)
  else groups ++ [(name, (comp == "width", comp == "height"))]

/-- One iteration of the grouping pass: a key ending in the underscore width
or height suffix is split at its last underscore and recorded under the part
before it. -/
def gatherStep (groups : List (String × Bool × Bool)) (kv : String × Val) :
    List (String × Bool × Bool) :=
  if strEndsWithU kv.1 "_width" || strEndsWithU kv.1 "_height" then
    updateSizeGroup groups (rsplitUnderscore kv.1).1 (rsplitUnderscore kv.1).2
  else groups

/-- Grouping pass of the validation step, in first-seen order. -/
def gatherSizeGroups (payload : List (String × Val)) : List (String × Bool × Bool) :=
  payload.foldl gatherStep []

/-- Validation step: the first group in insertion order holding exactly one
half raises a value error naming the group and the missing half. -/
def validateSizeParams (payload : List (String × Val)) : Except String Unit :=
  match (gatherSizeGroups payload).find? (fun g => (g.2.1 && !g.2.2) || (g.2.2 && !g.2.1)) with
  | some g =>
    if g.2.1 then
      .error ("Size parameter \x27" ++ g.1 ++ "\x27: Width is provided but Height is missing. Please provide both or leave both empty.")
    else
      .error ("Size parameter \x27" ++ g.1 ++ "\x27: Height is provided but Width is missing. Please provide both or leave both empty.")
  | none => .ok ()

/- ## The assembly pipeline of generate (steps 1.5 to the validation) -/

/-- Parameter assembly of the predictor generate method, from the tensor
upload pass to the validated, filtered payload handed to dispatch. -/
def assemble (upload : Nat → Option String) (meta : List (String × ParamInfo))
    (baseDefaults kwargs : List (String × Val)) :
    Except String (List (String × Val)) :=
  match processUploads upload kwargs baseDefaults with
  | .error e => .error e
  | .ok (kwargs2, req1) =>
    let arrayNames := (meta.filter (fun p => p.2.isArray)).map (fun p => p.1)
    let req2 := applyArrayParams upload meta kwargs2 req1
    let merged := mergeConnected arrayNames req2 kwargs2
    let filtered := filterParams merged
    match validateSizeParams filtered with
    | .error e => .error e
    | .ok _ => .ok filtered

/- ## Credential resolution (wavespeed_config.py and wavespeed_api_endpoints.py) -/

/-- Python truthiness of an optional key string. -/
def pyTruthyKey : Option String → Bool
  | some s => s ≠ ""
  | none => false

/-- Embedding of get_api_key_from_config: the environment variable wins over
the persisted config file key; absent or empty tiers fall through. -/
def get_api_key_from_config (envKey configKey : Option String) : Option String :=
  if pyTruthyKey envKey then envKey
  else if pyTruthyKey configKey then configKey
  else none

/-- Embedding of get_effective_api_key: the runtime global key wins, then the
config or environment resolution above. -/
def get_effective_api_key (runtimeKey envKey configKey : Option String) : Option String :=
  if pyTruthyKey runtimeKey then runtimeKey
  else get_api_key_from_config envKey configKey

/-- Embedding of upload_bytes_to_wavespeed restricted to its credential gate:
a missing key raises the no-credential value error before the network post,
whose success or failure is abstracted by the net argument. -/
def upload_bytes_to_wavespeed (envKey configKey : Option String)
    (net : Option String) : Except String String :=
  if pyTruthyKey (get_api_key_from_config envKey configKey) then
    match net with
    | some url => .ok url
    | none => .error "Upload failed"
  else
    .error "No API key configured. Please configure your WaveSpeed API key."

/- ## Claim C1 -/

/-- Claim C1: the media-kind classifier is a total function of the shape (the
Lean embedding is total by construction, and the source touches only len and
indexing, so no integer shape raises) and agrees with the decision table of
the specification on every rank; in particular a 64 by 64 by 3 shape is an
image and a 2 by 1 by 4000 shape is audio. -/
theorem detect_tensor_type_matches_spec :
    (∀ shape : List Nat, detect_tensor_type shape = classifySpecTable shape) ∧
    detect_tensor_type [64, 64, 3] = MediaKind.image ∧
    detect_tensor_type [2, 1, 4000] = MediaKind.audio := by
  refine ⟨?_, by decide, by decide⟩
  intro shape
  rcases shape with _ | ⟨a, _ | ⟨b, _ | ⟨c, _ | ⟨d, _ | ⟨e, rest⟩⟩⟩⟩⟩
  · rfl
  · rfl
  · simp only [detect_tensor_type, classifySpecTable]
    split_ifs <;> first | rfl | (exfalso; omega)
  · rfl
  · rfl
  · cases rest <;> rfl

/- ## Claim C2 -/

theorem firstWhere_eq_find (p : OutItem → Bool) (l : List OutItem) :
    firstWhere p l = l.find? p := by
  induction l with
  | nil => rfl
  | cons o t ih =>
    simp only [firstWhere, List.find?]
    cases h : p o <;> simp [h, ih]

/-- Claim C2: the smart output selection implements the selection rules of
the specification in order (empty, singleton verbatim, 3-D bundling, then
video, image, audio, non-URL and first-item priorities), and on the three
example output lists picks the mp4 URL, the full 3-D list, and the single
text item verbatim. -/
theorem select_smart_output_matches_spec :
    (∀ raw, select_smart_output raw = selectPrimarySpec raw) ∧
    select_smart_output [.str "https://x/a.mp4", .str "https://x/b.png"] =
      .item (.str "https://x/a.mp4") ∧
    select_smart_output [.str "https://x/a.glb", .str "https://x/b.png"] =
      .items [.str "https://x/a.glb", .str "https://x/b.png"] ∧
    select_smart_output [.str "hello world"] = .item (.str "hello world") := by
  refine ⟨?_, by decide, by decide, rfl⟩
  intro raw
  rcases raw with _ | ⟨a, _ | ⟨b, t⟩⟩
  · rfl
  · rfl
  · simp only [select_smart_output, selectPrimarySpec, firstWhere_eq_find]
    cases h3 : (a :: b :: t).any outIs3d with
    | true => simp [h3]
    | false =>
      simp only [h3, Bool.false_eq_true, if_false]
      cases hv : (a :: b :: t).find? outIsVideo with
      | some o => simp
      | none =>
        simp only []
        rcases hi : imageUrlsOf (a :: b :: t) with _ | ⟨u, _ | ⟨v, us⟩⟩
        · simp only [hi, List.length_nil]
          norm_num
        · simp [hi]
        · simp only [hi, List.length_cons]
          have h1 : ¬ (us.length + 1 + 1 = 1) := by omega
          have h2 : us.length + 1 + 1 > 1 := by omega
          simp [h1, h2]

/- ## Claim C10 -/

/-- Claim C10: output-kind detection is substring based, not suffix based:
each detection helper returns true exactly when one of its extension tokens
occurs anywhere in the lowercased string; a URL carrying .mp4 before a query
string (and not ending with .mp4) classifies as video, and matching is case
insensitive. -/
theorem url_kind_detection_substring_based :
    (∀ s, is_video_url s = true ↔
      ∃ e ∈ videoExtTokens, ∃ pre post, lowerChars s = pre ++ e.toList ++ post) ∧
    (∀ s, is_image_url s = true ↔
      ∃ e ∈ imageExtTokens, ∃ pre post, lowerChars s = pre ++ e.toList ++ post) ∧
    (∀ s, is_audio_url s = true ↔
      ∃ e ∈ audioExtTokens, ∃ pre post, lowerChars s = pre ++ e.toList ++ post) ∧
    (∀ s, is_3d_model_url s = true ↔
      ∃ e ∈ model3dExtTokens, ∃ pre post, lowerChars s = pre ++ e.toList ++ post) ∧
    is_video_url "https://x/clip.mp4?sig=abc" = true ∧
    isPrefixChars ".mp4".toList.reverse "https://x/clip.mp4?sig=abc".toList.reverse = false ∧
    is_video_url "HTTPS://X/CLIP.MP4" = true ∧
    (process_outputs [.str "https://x/clip.mp4?sig=abc"]).video_url =
      "https://x/clip.mp4?sig=abc" := by
  refine ⟨?_, ?_, ?_, ?_, by decide, by decide, by decide, rfl⟩
  all_goals
    intro s
    simp only [is_video_url, is_image_url, is_audio_url, is_3d_model_url,
      List.any_eq_true, containsLower, containsChars_iff]

/- ## Claim C6 -/

/-- Image bucket condition of one processor-loop item: a string item that
misses the video set and matches the image set. -/
def imgPick (o : OutItem) : Option String :=
  match o with
  | .str s => if !procHasVideoExt s && procHasImageExt s then some s else none
  | _ => none

/-- Three-D bucket condition of one processor-loop item: a string item that
misses the video, image and audio sets and matches the six-element 3-D set. -/
def pick3d (o : OutItem) : Bool :=
  match o with
  | .str s =>
    !procHasVideoExt s && !procHasImageExt s && !procHasAudioExt s && procHasModel3dExt s
  | _ => false

theorem procHasModel3dExt_ne_empty {s : String} (h : procHasModel3dExt s = true) :
    s ≠ "" := by
  intro hs
  subst hs
  exact absurd h (by decide)

theorem poStep_images (st : POState) (o : OutItem) :
    (poStep st o).images = st.images ++ (imgPick o).toList := by
  cases o <;> simp only [poStep, imgPick] <;> split_ifs <;> simp_all

theorem foldl_poStep_images (outs : List OutItem) :
    ∀ st : POState, (outs.foldl poStep st).images = st.images ++ outs.filterMap imgPick := by
  induction outs with
  | nil => intro st; simp
  | cons o t ih =>
    intro st
    simp only [List.foldl_cons, List.filterMap_cons]
    rw [ih, poStep_images]
    cases h : imgPick o <;> simp [h]

theorem poStep_model3d (st : POState) (o : OutItem) :
    ((poStep st o).model_3d_url ≠ "") ↔ (st.model_3d_url ≠ "" ∨ pick3d o = true) := by
  cases o with
  | structured d => simp only [poStep, pick3d]; split_ifs <;> simp
  | scalar t => simp only [poStep, pick3d]; split_ifs <;> simp
  | str s =>
    simp only [poStep, pick3d]
    split_ifs <;>
      simp_all <;>
      try exact procHasModel3dExt_ne_empty (by assumption)
  
theorem foldl_poStep_model3d (outs : List OutItem) :
    ∀ st : POState, ((outs.foldl poStep st).model_3d_url ≠ "") ↔
      (st.model_3d_url ≠ "" ∨ ∃ o ∈ outs, pick3d o = true) := by
  induction outs with
  | nil => intro st; simp
  | cons o t ih =>
    intro st
    simp only [List.foldl_cons]
    rw [ih, poStep_model3d]
    simp [or_assoc]

/-- Claim C6 counterexample: the predictor helper counts .usdz as a 3-D
model URL, but the bucketing function of the output processor does not: on a
single .usdz output its 3-D slot stays empty, so the two functions do not
share the nine-element 3-D extension set claimed. -/
theorem process_outputs_usdz_cx :
    is_3d_model_url "https://x/a.usdz" = true ∧
    (process_outputs [OutItem.str "https://x/a.usdz"]).model_3d_url = "" := by
  exact ⟨by decide, rfl⟩

/-- Claim C6 amended: the bucketing function uses the same video, image and
audio extension sets as the selection helpers, but its 3-D set is only the
six-element subset (missing .usdz, .dae and .3ds, though every token it does
use is also in the nine-element helper set), and an item fills the 3-D slot
only when it missed the earlier sets; whenever the 3-D slot is filled the
image tensor slot is None, and the collected image URLs are exposed through
the first-image and image-list fields either way. -/
theorem process_outputs_bucketing_amended :
    (∀ s, procHasVideoExt s = is_video_url s ∧ procHasImageExt s = is_image_url s ∧
      procHasAudioExt s = is_audio_url s) ∧
    (∀ s, procHasModel3dExt s = true → is_3d_model_url s = true) ∧
    (∀ outs, (process_outputs outs).model_3d_url ≠ "" → (process_outputs outs).image = none) ∧
    (∀ outs, (process_outputs outs).image_urls = outs.filterMap imgPick ∧
      (process_outputs outs).first_image_url = (outs.filterMap imgPick).headD "") ∧
    (∀ outs, ((process_outputs outs).model_3d_url ≠ "") ↔ ∃ o ∈ outs, pick3d o = true) ∧
    process_outputs [.str "https://x/a.glb", .str "https://x/b.png"] =
      { video_url := "", image := none, audio_url := "", text := "",
        first_image_url := "https://x/b.png", image_urls := ["https://x/b.png"],
        model_3d_url := "https://x/a.glb" } := by
  refine ⟨fun s => ⟨rfl, rfl, rfl⟩, ?_, ?_, ?_, ?_, rfl⟩
  · intro s h
    simp only [procHasModel3dExt, List.any_eq_true] at h
    obtain ⟨e, he, hc⟩ := h
    simp only [is_3d_model_url, model3dExtTokens, List.any_eq_true]
    refine ⟨e, ?_, hc⟩
    simp only [List.mem_cons, List.mem_singleton] at he ⊢
    tauto
  · intro outs h
    simp only [process_outputs] at h ⊢
    rw [if_pos h]
  · intro outs
    have hims : (List.foldl poStep poInit outs).images = List.filterMap imgPick outs := by
      simpa using foldl_poStep_images outs poInit
    constructor
    · show (if (List.foldl poStep poInit outs).images ≠ [] then
          (List.foldl poStep poInit outs).images else []) = List.filterMap imgPick outs
      split_ifs with h
      · exact hims
      · rw [← hims]
        exact (not_ne_iff.mp h).symm
    · show (if (List.foldl poStep poInit outs).images ≠ [] then
          (List.foldl poStep poInit outs).images.headD "" else "") =
          (List.filterMap imgPick outs).headD ""
      split_ifs with h
      · rw [hims]
      · rw [← hims, not_ne_iff.mp h]
        rfl
  · intro outs
    have h := foldl_poStep_model3d outs poInit
    simp only [process_outputs]
    simpa [poInit] using h

/-- Claim C6 witness: on a concrete list holding a glb URL and a png URL the
3-D slot is filled and the tensor conversion result is indeed None. -/
theorem process_outputs_bucketing_amended_witness :
    (process_outputs [OutItem.str "https://x/a.glb", OutItem.str "https://x/b.png"]).model_3d_url ≠ "" ∧
    (process_outputs [OutItem.str "https://x/a.glb", OutItem.str "https://x/b.png"]).image = none :=
  ⟨by decide, process_outputs_bucketing_amended.2.2.1 _ (by decide)⟩

/- ## Claim C5 -/

theorem eqEmptyStrVal_iff (v : Val) : eqEmptyStrVal v = true ↔ v = .vstr "" := by
  cases v <;> simp [eqEmptyStrVal]

theorem eqEmptyListVal_iff (v : Val) : eqEmptyListVal v = true ↔ v = .vlist [] := by
  cases v <;> simp [eqEmptyListVal]

theorem isNoneVal_iff (v : Val) : isNoneVal v = true ↔ v = .vnull := by
  cases v <;> simp [isNoneVal]

theorem not_isEmptyVal_iff (v : Val) :
    (!isEmptyVal v) = true ↔ (v ≠ .vstr "" ∧ v ≠ .vlist [] ∧ v ≠ .vnull) := by
  simp only [Bool.not_eq_true', isEmptyVal, Bool.or_eq_false_iff]
  rw [← Bool.not_eq_true (eqEmptyStrVal v), ← Bool.not_eq_true (eqEmptyListVal v),
    ← Bool.not_eq_true (isNoneVal v)]
  simp [eqEmptyStrVal_iff, eqEmptyListVal_iff, isNoneVal_iff, and_assoc]

/-- Claim C5: the filtering pass removes exactly the fields whose value is an
empty string, an empty list, or None, preserving zero and false; the example
payload keeps only its seed field; and every payload the assembly hands to
dispatch is free of such empty values. -/
theorem filtering_pass_exact :
    (∀ (d : List (String × Val)) (k : String) (v : Val),
      (k, v) ∈ filterParams d ↔
        ((k, v) ∈ d ∧ v ≠ .vstr "" ∧ v ≠ .vlist [] ∧ v ≠ .vnull)) ∧
    filterParams [("prompt", .vstr ""), ("seed", .vint 0), ("tags", .vlist [])] =
      [("seed", .vint 0)] ∧
    (∀ upload meta base kwargs payload,
      assemble upload meta base kwargs = .ok payload →
      ∀ k v, (k, v) ∈ payload → v ≠ .vstr "" ∧ v ≠ .vlist [] ∧ v ≠ .vnull) := by
  refine ⟨?_, rfl, ?_⟩
  · intro d k v
    rw [filterParams, List.mem_filter]
    exact and_congr_right fun _ => not_isEmptyVal_iff v
  · intro upload meta base kwargs payload h k v hmem
    unfold assemble at h
    cases hpu : processUploads upload kwargs base with
    | error e => rw [hpu] at h; cases h
    | ok pr =>
      rw [hpu] at h
      obtain ⟨kwargs2, req1⟩ := pr
      dsimp only at h
      cases hv : validateSizeParams (filterParams (mergeConnected
          ((List.filter (fun p => p.2.isArray) meta).map (fun p => p.1))
          (applyArrayParams upload meta kwargs2 req1) kwargs2)) with
      | error e => rw [hv] at h; cases h
      | ok u =>
        rw [hv] at h
        have hpay := Except.ok.inj h
        subst hpay
        have := (List.mem_filter.mp hmem).2
        exact (not_isEmptyVal_iff v).mp this

/- ## Claim C3 -/

theorem takeWhile_width_chars (l : List Char) :
    List.takeWhile notUnderscore (('h' : Char) :: 't' :: 'd' :: 'i' :: 'w' :: '_' :: l) =
      ['h', 't', 'd', 'i', 'w'] := rfl

theorem dropWhile_width_chars (l : List Char) :
    List.dropWhile notUnderscore (('h' : Char) :: 't' :: 'd' :: 'i' :: 'w' :: '_' :: l) =
      '_' :: l := rfl

theorem takeWhile_height_chars (l : List Char) :
    List.takeWhile notUnderscore (('t' : Char) :: 'h' :: 'g' :: 'i' :: 'e' :: 'h' :: '_' :: l) =
      ['t', 'h', 'g', 'i', 'e', 'h'] := rfl

theorem dropWhile_height_chars (l : List Char) :
    List.dropWhile notUnderscore (('t' : Char) :: 'h' :: 'g' :: 'i' :: 'e' :: 'h' :: '_' :: l) =
      '_' :: l := rfl

theorem rsplitUnderscore_append_width (name : String) :
    rsplitUnderscore (name ++ "_width") = (name, "width") := by
  obtain ⟨d⟩ := name
  show rsplitUnderscore (String.mk (d ++ ['_', 'w', 'i', 'd', 't', 'h'])) =
    (String.mk d, "width")
  simp only [rsplitUnderscore]
  have h1 : (String.mk (d ++ ['_', 'w', 'i', 'd', 't', 'h'])).toList.reverse =
      ('h' : Char) :: 't' :: 'd' :: 'i' :: 'w' :: '_' :: d.reverse := by
    show (d ++ ['_', 'w', 'i', 'd', 't', 'h']).reverse = _
    rw [List.reverse_append]
    rfl
  rw [h1, takeWhile_width_chars, dropWhile_width_chars]
  simp [List.reverse_reverse]

theorem rsplitUnderscore_append_height (name : String) :
    rsplitUnderscore (name ++ "_height") = (name, "height") := by
  obtain ⟨d⟩ := name
  show rsplitUnderscore (String.mk (d ++ ['_', 'h', 'e', 'i', 'g', 'h', 't'])) =
    (String.mk d, "height")
  simp only [rsplitUnderscore]
  have h1 : (String.mk (d ++ ['_', 'h', 'e', 'i', 'g', 'h', 't'])).toList.reverse =
      ('t' : Char) :: 'h' :: 'g' :: 'i' :: 'e' :: 'h' :: '_' :: d.reverse := by
    show (d ++ ['_', 'h', 'e', 'i', 'g', 'h', 't']).reverse = _
    rw [List.reverse_append]
    rfl
  rw [h1, takeWhile_height_chars, dropWhile_height_chars]
  simp [List.reverse_reverse]

theorem strEndsWithU_iff (s suf : String) :
    strEndsWithU s suf = true ↔ ∃ p : String, s = p ++ suf := by
  rw [strEndsWithU, isPrefixChars_iff]
  constructor
  · rintro ⟨t, h⟩
    refine ⟨String.mk t.reverse, ?_⟩
    obtain ⟨d⟩ := s
    obtain ⟨e⟩ := suf
    show String.mk d = String.mk (t.reverse ++ e)
    have : d.reverse = e.reverse ++ t := h
    have hd : d = (e.reverse ++ t).reverse := by
      rw [← this, List.reverse_reverse]
    rw [hd, List.reverse_append, List.reverse_reverse]
  · rintro ⟨p, rfl⟩
    refine ⟨p.toList.reverse, ?_⟩
    obtain ⟨d⟩ := p
    obtain ⟨e⟩ := suf
    show (d ++ e).reverse = e.reverse ++ d.reverse
    simp

/-- Width flag recorded under a group name, via the first matching entry. -/
def groupW (groups : List (String × Bool × Bool)) (name : String) : Bool :=
  match groups.find? (fun g => g.1 = name) with
  | some g => g.2.1
  | none => false

/-- Height flag recorded under a group name, via the first matching entry. -/
def groupH (groups : List (String × Bool × Bool)) (name : String) : Bool :=
  match groups.find? (fun g => g.1 = name) with
  | some g => g.2.2
  | none => false

/-- Key presence of the width half of a group in a payload. -/
def hasWKey (payload : List (String × Val)) (name : String) : Bool :=
  payload.any (fun kv => kv.1 == name ++ "_width")

/-- Key presence of the height half of a group in a payload. -/
def hasHKey (payload : List (String × Val)) (name : String) : Bool :=
  payload.any (fun kv => kv.1 == name ++ "_height")

theorem str_append_cancel_right {p q s : String} (h : p ++ s = q ++ s) : p = q := by
  obtain ⟨a⟩ := p
  obtain ⟨b⟩ := q
  obtain ⟨c⟩ := s
  have h2 : a ++ c = b ++ c := congrArg String.data h
  exact congrArg String.mk (List.append_cancel_right h2)

theorem groupW_updateSizeGroup (groups : List (String × Bool × Bool))
    (name comp name2 : String) :
    groupW (updateSizeGroup groups name comp) name2 =
      if name2 = name then (groupW groups name2 || (comp == "width"))
      else groupW groups name2 := by
  unfold updateSizeGroup groupW
  by_cases hany : groups.any (fun g => g.1 = name) = true
  · rw [if_pos hany, List.find?_map]
    have hcomp : ((fun g : String × Bool × Bool => decide (g.1 = name2)) ∘
        (fun g => if g.1 = name then
          (name, (g.2.1 || comp == "width", g.2.2 || comp == "height")) else g)) =
        fun g : String × Bool × Bool => decide (g.1 = name2) := by
      funext g
      by_cases hg : g.1 = name <;> simp [hg]
    rw [hcomp]
    cases hf : groups.find? (fun g : String × Bool × Bool => g.1 = name2) with
    | none =>
      by_cases hn : name2 = name
      · subst hn
        rw [List.any_eq_true] at hany
        obtain ⟨g, hg, hgp⟩ := hany
        exact absurd hgp (by simpa using List.find?_eq_none.mp hf g hg)
      · simp [hn]
    | some g0 =>
      have hg0 : g0.1 = name2 := by simpa using List.find?_some hf
      by_cases hn : name2 = name
      · subst hn
        simp [hg0]
      · have : ¬ g0.1 = name := fun he => hn (hg0 ▸ he)
        simp [this, hn]
  · rw [if_neg hany, List.find?_append]
    cases hf : groups.find? (fun g : String × Bool × Bool => g.1 = name2) with
    | some g0 =>
      by_cases hn : name2 = name
      · subst hn
        have hg0 : g0.1 = name2 := by simpa using List.find?_some hf
        rw [List.any_eq_true] at hany
        exact absurd ⟨g0, List.mem_of_find?_eq_some hf, by simpa using hg0⟩ hany
      · simp [hn]
    | none =>
      by_cases hn : name2 = name
      · subst hn
        simp
      · have : ¬ (name = name2) := fun he => hn he.symm
        simp [hn, this]

theorem groupH_updateSizeGroup (groups : List (String × Bool × Bool))
    (name comp name2 : String) :
    groupH (updateSizeGroup groups name comp) name2 =
      if name2 = name then (groupH groups name2 || (comp == "height"))
      else groupH groups name2 := by
  unfold updateSizeGroup groupH
  by_cases hany : groups.any (fun g => g.1 = name) = true
  · rw [if_pos hany, List.find?_map]
    have hcomp : ((fun g : String × Bool × Bool => decide (g.1 = name2)) ∘
        (fun g => if g.1 = name then
          (name, (g.2.1 || comp == "width", g.2.2 || comp == "height")) else g)) =
        fun g : String × Bool × Bool => decide (g.1 = name2) := by
      funext g
      by_cases hg : g.1 = name <;> simp [hg]
    rw [hcomp]
    cases hf : groups.find? (fun g : String × Bool × Bool => g.1 = name2) with
    | none =>
      by_cases hn : name2 = name
      · subst hn
        rw [List.any_eq_true] at hany
        obtain ⟨g, hg, hgp⟩ := hany
        exact absurd hgp (by simpa using List.find?_eq_none.mp hf g hg)
      · simp [hn]
    | some g0 =>
      have hg0 : g0.1 = name2 := by simpa using List.find?_some hf
      by_cases hn : name2 = name
      · subst hn
        simp [hg0]
      · have : ¬ g0.1 = name := fun he => hn (hg0 ▸ he)
        simp [this, hn]
  · rw [if_neg hany, List.find?_append]
    cases hf : groups.find? (fun g : String × Bool × Bool => g.1 = name2) with
    | some g0 =>
      by_cases hn : name2 = name
      · subst hn
        have hg0 : g0.1 = name2 := by simpa using List.find?_some hf
        rw [List.any_eq_true] at hany
        exact absurd ⟨g0, List.mem_of_find?_eq_some hf, by simpa using hg0⟩ hany
      · simp [hn]
    | none =>
      by_cases hn : name2 = name
      · subst hn
        simp
      · have : ¬ (name = name2) := fun he => hn he.symm
        simp [hn, this]

theorem groupW_gatherStep (acc : List (String × Bool × Bool)) (kv : String × Val)
    (name : String) :
    groupW (gatherStep acc kv) name = (groupW acc name || (kv.1 == name ++ "_width")) := by
  unfold gatherStep
  by_cases hw : strEndsWithU kv.1 "_width" = true
  · rw [if_pos (by simp [hw])]
    obtain ⟨p, hp⟩ := (strEndsWithU_iff _ _).mp hw
    rw [hp, rsplitUnderscore_append_width, groupW_updateSizeGroup]
    by_cases hnp : name = p
    · subst hnp
      simp
    · rw [if_neg hnp]
      have hne : (p ++ "_width" == name ++ "_width") = false := by
        rw [beq_eq_false_iff_ne]
        intro h
        exact hnp (str_append_cancel_right h).symm
      rw [hne, Bool.or_false]
  · by_cases hh : strEndsWithU kv.1 "_height" = true
    · rw [if_pos (by simp [hh])]
      obtain ⟨p, hp⟩ := (strEndsWithU_iff _ _).mp hh
      rw [hp] at hw
      rw [hp, rsplitUnderscore_append_height, groupW_updateSizeGroup]
      have hne : (p ++ "_height" == name ++ "_width") = false := by
        rw [beq_eq_false_iff_ne]
        intro h
        exact hw ((strEndsWithU_iff _ _).mpr ⟨name, h⟩)
      rw [hne, Bool.or_false]
      by_cases hnp : name = p
      · subst hnp
        simp
      · rw [if_neg hnp]
    · rw [if_neg (by simp [hw, hh])]
      have hne : (kv.1 == name ++ "_width") = false := by
        rw [beq_eq_false_iff_ne]
        intro h
        exact hw ((strEndsWithU_iff _ _).mpr ⟨name, h⟩)
      rw [hne, Bool.or_false]

theorem groupH_gatherStep (acc : List (String × Bool × Bool)) (kv : String × Val)
    (name : String) :
    groupH (gatherStep acc kv) name = (groupH acc name || (kv.1 == name ++ "_height")) := by
  unfold gatherStep
  by_cases hw : strEndsWithU kv.1 "_width" = true
  · rw [if_pos (by simp [hw])]
    obtain ⟨p, hp⟩ := (strEndsWithU_iff _ _).mp hw
    have hwidth_not_height : strEndsWithU (p ++ "_width") "_height" = false := by
      cases hq : strEndsWithU (p ++ "_width") "_height" with
      | false => rfl
      | true =>
        obtain ⟨q, hqq⟩ := (strEndsWithU_iff _ _).mp hq
        have := congrArg (fun s : String => s.data.getLast?) hqq
        simp [String.data_append] at this
    rw [hp, rsplitUnderscore_append_width, groupH_updateSizeGroup]
    have hne : (p ++ "_width" == name ++ "_height") = false := by
      rw [beq_eq_false_iff_ne]
      intro h
      have : strEndsWithU (p ++ "_width") "_height" = true :=
        (strEndsWithU_iff _ _).mpr ⟨name, h⟩
      rw [hwidth_not_height] at this
      cases this
    rw [hne, Bool.or_false]
    by_cases hnp : name = p
    · subst hnp
      simp
    · rw [if_neg hnp]
  · by_cases hh : strEndsWithU kv.1 "_height" = true
    · rw [if_pos (by simp [hh])]
      obtain ⟨p, hp⟩ := (strEndsWithU_iff _ _).mp hh
      rw [hp, rsplitUnderscore_append_height, groupH_updateSizeGroup]
      by_cases hnp : name = p
      · subst hnp
        simp
      · rw [if_neg hnp]
        have hne : (p ++ "_height" == name ++ "_height") = false := by
          rw [beq_eq_false_iff_ne]
          intro h
          exact hnp (str_append_cancel_right h).symm
        rw [hne, Bool.or_false]
    · rw [if_neg (by simp [hw, hh])]
      have hne : (kv.1 == name ++ "_height") = false := by
        rw [beq_eq_false_iff_ne]
        intro h
        exact hh ((strEndsWithU_iff _ _).mpr ⟨name, h⟩)
      rw [hne, Bool.or_false]

theorem groupW_gather_fold (payload : List (String × Val)) :
    ∀ (acc : List (String × Bool × Bool)) (name : String),
      groupW (payload.foldl gatherStep acc) name =
        (groupW acc name || payload.any (fun kv => kv.1 == name ++ "_width")) := by
  induction payload with
  | nil => intro acc name; simp
  | cons kv t ih =>
    intro acc name
    simp only [List.foldl_cons, List.any_cons]
    rw [ih, groupW_gatherStep, Bool.or_assoc]

theorem groupH_gather_fold (payload : List (String × Val)) :
    ∀ (acc : List (String × Bool × Bool)) (name : String),
      groupH (payload.foldl gatherStep acc) name =
        (groupH acc name || payload.any (fun kv => kv.1 == name ++ "_height")) := by
  induction payload with
  | nil => intro acc name; simp
  | cons kv t ih =>
    intro acc name
    simp only [List.foldl_cons, List.any_cons]
    rw [ih, groupH_gatherStep, Bool.or_assoc]

theorem updateSizeGroup_keys_nodup {groups : List (String × Bool × Bool)}
    (name comp : String)
    (h : (groups.map (fun g => g.1)).Nodup) :
    (((updateSizeGroup groups name comp)).map (fun g => g.1)).Nodup := by
  unfold updateSizeGroup
  by_cases hany : groups.any (fun g => g.1 = name) = true
  · rw [if_pos hany]
    have hkeys : ((groups.map (fun g =>
        if g.1 = name then (name, (g.2.1 || comp == "width", g.2.2 || comp == "height"))
        else g)).map (fun g => g.1)) = groups.map (fun g => g.1) := by
      rw [List.map_map]
      apply List.map_congr_left
      intro g _
      by_cases hg : g.1 = name <;> simp [hg]
    rw [hkeys]
    exact h
  · rw [if_neg hany, List.map_append]
    rw [List.nodup_append]
    refine ⟨h, by simp, ?_⟩
    intro k hk
    simp only [List.map_cons, List.map_nil, List.mem_singleton]
    intro hkn
    subst hkn
    obtain ⟨g, hg, hgk⟩ := List.mem_map.mp hk
    rw [List.any_eq_true] at hany
    exact hany ⟨g, hg, by simp [hgk]⟩

theorem gather_keys_nodup (payload : List (String × Val)) :
    ((gatherSizeGroups payload).map (fun g => g.1)).Nodup := by
  suffices h : ∀ acc : List (String × Bool × Bool), (acc.map (fun g => g.1)).Nodup →
      ((payload.foldl gatherStep acc).map (fun g => g.1)).Nodup from h [] (by simp)
  induction payload with
  | nil => intro acc h; exact h
  | cons kv t ih =>
    intro acc h
    simp only [List.foldl_cons]
    apply ih
    unfold gatherStep
    split_ifs
    · exact updateSizeGroup_keys_nodup _ _ h
    · exact h

theorem find?_key_of_mem {groups : List (String × Bool × Bool)}
    (h : (groups.map (fun g => g.1)).Nodup) {g : String × Bool × Bool} (hg : g ∈ groups) :
    groups.find? (fun x => x.1 = g.1) = some g := by
  induction groups with
  | nil => cases hg
  | cons a t ih =>
    rw [List.map_cons, List.nodup_cons] at h
    rcases List.mem_cons.mp hg with rfl | hgt
    · simp [List.find?]
    · have hane : ¬ (a.1 = g.1) := fun he => h.1 (he ▸ List.mem_map_of_mem _ hgt)
      rw [List.find?_cons_of_neg _ (by simpa using hane)]
      exact ih h.2 hgt

theorem validateSizeParams_ok_iff (payload : List (String × Val)) :
    validateSizeParams payload = .ok () ↔
      ∀ name : String, hasWKey payload name = hasHKey payload name := by
  have hW : ∀ name, groupW (gatherSizeGroups payload) name = hasWKey payload name := by
    intro name
    simpa [groupW, hasWKey] using groupW_gather_fold payload [] name
  have hH : ∀ name, groupH (gatherSizeGroups payload) name = hasHKey payload name := by
    intro name
    simpa [groupH, hasHKey] using groupH_gather_fold payload [] name
  unfold validateSizeParams
  cases hf : (gatherSizeGroups payload).find?
      (fun g => (g.2.1 && !g.2.2) || (g.2.2 && !g.2.1)) with
  | none =>
    simp only []
    constructor
    · intro _ name
      rw [← hW, ← hH]
      by_contra hne
      cases hgf : (gatherSizeGroups payload).find?
          (fun g : String × Bool × Bool => g.1 = name) with
      | none =>
        apply hne
        unfold groupW groupH
        rw [hgf]
      | some g0 =>
        have hxor : ((g0.2.1 && !g0.2.2) || (g0.2.2 && !g0.2.1)) = true := by
          unfold groupW groupH at hne
          rw [hgf] at hne
          cases h1 : g0.2.1 <;> cases h2 : g0.2.2 <;> simp_all
        exact (List.find?_eq_none.mp hf _ (List.mem_of_find?_eq_some hgf)) hxor
    · intro _
      trivial
  | some g =>
    simp only []
    constructor
    · intro h
      split_ifs at h
    · intro hall
      exfalso
      have hmem := List.mem_of_find?_eq_some hf
      have hxor := List.find?_some hf
      have hgf := find?_key_of_mem (gather_keys_nodup payload) hmem
      have h1 : groupW (gatherSizeGroups payload) g.1 = g.2.1 := by
        unfold groupW
        rw [hgf]
      have h2 : groupH (gatherSizeGroups payload) g.1 = g.2.2 := by
        unfold groupH
        rw [hgf]
      have heq := hall g.1
      rw [← hW, ← hH, h1, h2] at heq
      cases ha : g.2.1 <;> cases hb : g.2.2 <;> simp_all

/-- Claim C3 counterexample: a payload holding only a bare width field (no
underscore before width) passes assembly, because the grouping step only
collects keys that end in the literal underscore suffixes; the claim that
this input fails with a pairing error is false on the code. -/
theorem size_pairing_bare_width_cx :
    assemble (fun _ => none) [] [("width", Val.vint 512)] [] =
      .ok [("width", Val.vint 512)] ∧
    strEndsWithU "width" "_width" = false := by
  exact ⟨rfl, by decide⟩

/-- Claim C3 amended: assembly groups exactly the filtered-payload fields
ending in the literal suffixes underscore-width and underscore-height by the
part before the last underscore, succeeds precisely when every group name
has its width key and height key together, and otherwise fails with a value
error naming the group and the missing half; bare width or height fields
without the underscore are exempt, so defaults of width 512 with a connected
height succeed, as does a bare width alone. -/
theorem size_pairing_validation_amended :
    (∀ payload : List (String × Val), validateSizeParams payload = .ok () ↔
      ∀ name : String, hasWKey payload name = hasHKey payload name) ∧
    validateSizeParams [("size_width", Val.vint 512)] =
      .error "Size parameter \x27size\x27: Width is provided but Height is missing. Please provide both or leave both empty." ∧
    validateSizeParams [("size_height", Val.vint 512)] =
      .error "Size parameter \x27size\x27: Height is provided but Width is missing. Please provide both or leave both empty." ∧
    validateSizeParams [("size_width", Val.vint 512), ("size_height", Val.vint 768)] =
      .ok () ∧
    assemble (fun _ => none) [] [("width", Val.vint 512)] [("height", Val.vint 512)] =
      .ok [("width", Val.vint 512), ("height", Val.vint 512)] := by
  exact ⟨validateSizeParams_ok_iff, rfl, rfl, rfl, rfl⟩

/-- Claim C5 witness: the dispatched-payload invariant applied to a concrete
assembly run whose payload holds the seed field with value zero. -/
theorem filtering_pass_exact_witness :
    Val.vint 0 ≠ Val.vstr "" ∧ Val.vint 0 ≠ Val.vlist [] ∧ Val.vint 0 ≠ Val.vnull :=
  filtering_pass_exact.2.2 (fun _ => none) [] [("seed", Val.vint 0)] []
    [("seed", Val.vint 0)] rfl "seed" (Val.vint 0) (by simp)

/- ## Claim C4 -/

theorem dropPrefixChars_eq_some {p : List Char} :
    ∀ {l r : List Char}, dropPrefixChars p l = some r ↔ l = p ++ r := by
  induction p with
  | nil =>
    intro l r
    simp [dropPrefixChars, eq_comm]
  | cons a as ih =>
    intro l r
    cases l with
    | nil => simp [dropPrefixChars]
    | cons b bs =>
      simp only [dropPrefixChars]
      split_ifs with hab
      · subst hab
        rw [ih]
        simp
      · simp only [List.cons_append, List.cons_eq_cons]
        constructor
        · intro h
          cases h
        · rintro ⟨hba, _⟩
          exact absurd hba.symm hab

theorem stripOneUnderscore_cons_underscore (t : List Char) :
    stripOneUnderscore ('_' :: t) = t := rfl

theorem stripOneUnderscore_no_underscore {l : List Char}
    (h : l.head? ≠ some '_') : stripOneUnderscore l = l := by
  cases l with
  | nil => rfl
  | cons c t =>
    simp only [List.head?_cons, ne_eq, Option.some.injEq] at h
    unfold stripOneUnderscore
    split
    · rename_i heq
      rw [List.cons_eq_cons] at heq
      exact absurd heq.1 h
    · rfl

theorem ifDigits_eq_some (rest2 : List Char) (i : Nat) :
    (if rest2 ≠ [] ∧ rest2.all Char.isDigit then some (digitsToNat rest2) else none) =
        some i ↔
      (rest2 ≠ [] ∧ rest2.all Char.isDigit ∧ digitsToNat rest2 = i) := by
  split_ifs with h
  · simp only [Option.some.injEq]
    constructor
    · intro he
      exact ⟨h.1, h.2, he⟩
    · rintro ⟨_, _, he⟩
      exact he
  · constructor
    · intro hc
      exact absurd hc (by simp)
    · rintro ⟨h1, h2, _⟩
      exact absurd ⟨h1, h2⟩ h

theorem matchMemberKey_eq_some (stem key : String) (i : Nat) :
    matchMemberKey stem key = some i ↔
      ∃ ds : List Char, ds ≠ [] ∧ ds.all Char.isDigit = true ∧ digitsToNat ds = i ∧
        (key.toList = stem.toList ++ ds ∨ key.toList = stem.toList ++ '_' :: ds) := by
  unfold matchMemberKey
  cases hd : dropPrefixChars stem.toList key.toList with
  | none =>
    constructor
    · intro h
      exact Option.noConfusion h
    · rintro ⟨ds, hne, hdig, hsum, (hk | hk)⟩
      · rw [dropPrefixChars_eq_some.mpr hk] at hd
        exact Option.noConfusion hd
      · rw [dropPrefixChars_eq_some.mpr hk] at hd
        exact Option.noConfusion hd
  | some rest =>
    have hkey : key.toList = stem.toList ++ rest := dropPrefixChars_eq_some.mp hd
    show (if stripOneUnderscore rest ≠ [] ∧ (stripOneUnderscore rest).all Char.isDigit
        then some (digitsToNat (stripOneUnderscore rest)) else none) = some i ↔ _
    rw [ifDigits_eq_some]
    constructor
    · rintro ⟨hne, hdig, hsum⟩
      refine ⟨stripOneUnderscore rest, hne, hdig, hsum, ?_⟩
      cases rest with
      | nil => exact absurd rfl hne
      | cons c t =>
        by_cases hc : c = '_'
        · subst hc
          exact Or.inr (by rw [hkey, stripOneUnderscore_cons_underscore])
        · exact Or.inl (by
            rw [hkey, stripOneUnderscore_no_underscore (by simpa using hc)])
    · rintro ⟨ds, hne, hdig, hsum, (hk | hk)⟩
      · rw [hkey] at hk
        have hrd : rest = ds := List.append_cancel_left hk
        subst hrd
        have hstrip : stripOneUnderscore rest = rest := by
          apply stripOneUnderscore_no_underscore
          cases rest with
          | nil => simp
          | cons c t =>
            simp only [List.head?_cons, ne_eq, Option.some.injEq]
            intro hcu
            subst hcu
            simp [List.all_cons] at hdig
        rw [hstrip]
        exact ⟨hne, hdig, hsum⟩
      · rw [hkey] at hk
        have hrd : rest = '_' :: ds := List.append_cancel_left hk
        subst hrd
        rw [stripOneUnderscore_cons_underscore]
        exact ⟨hne, hdig, hsum⟩

/-- The contribution of one sorted member to the final array value: a tensor
member contributes its uploaded URL or nothing on upload failure, any other
member contributes its coerced value only when that value is truthy. -/
def memberPick (upload : Nat → Option String) (itemType : String)
    (m : Nat × Val) : Option Val :=
  match m.2 with
  | .vtensor t => (upload t).map Val.vstr
  | v =>
    let c := convert_parameter_value v itemType
    if pyTruthy c then some c else none

theorem memberStep_eq (upload : Nat → Option String) (itemType : String)
    (acc : List Val) (m : Nat × Val) :
    memberStep upload itemType acc m = acc ++ (memberPick upload itemType m).toList := by
  obtain ⟨i, v⟩ := m
  cases v with
  | vtensor t =>
    simp only [memberStep, memberPick]
    cases upload t <;> simp
  | vnull => simp only [memberStep, memberPick]; split_ifs <;> simp
  | vstr s => simp only [memberStep, memberPick]; split_ifs <;> simp
  | vint n => simp only [memberStep, memberPick]; split_ifs <;> simp
  | vbool b => simp only [memberStep, memberPick]; split_ifs <;> simp
  | vlist l => simp only [memberStep, memberPick]; split_ifs <;> simp

theorem foldl_memberStep_filterMap (upload : Nat → Option String) (itemType : String)
    (ms : List (Nat × Val)) :
    ∀ acc : List Val, ms.foldl (memberStep upload itemType) acc =
      acc ++ ms.filterMap (memberPick upload itemType) := by
  induction ms with
  | nil => intro acc; simp
  | cons m t ih =>
    intro acc
    simp only [List.foldl_cons, List.filterMap_cons]
    rw [ih, memberStep_eq]
    cases h : memberPick upload itemType m <;> simp [h]

theorem insertByIdx_perm (m : Nat × Val) (l : List (Nat × Val)) :
    (insertByIdx m l).Perm (m :: l) := by
  induction l with
  | nil => exact List.Perm.refl _
  | cons n t ih =>
    unfold insertByIdx
    split_ifs
    · exact List.Perm.refl _
    · exact (List.Perm.cons n ih).trans (List.Perm.swap m n t)

theorem insertByIdx_sorted (m : Nat × Val) (l : List (Nat × Val))
    (h : l.Pairwise (fun a b => a.1 ≤ b.1)) :
    (insertByIdx m l).Pairwise (fun a b => a.1 ≤ b.1) := by
  induction l with
  | nil => simp [insertByIdx]
  | cons n t ih =>
    rw [List.pairwise_cons] at h
    unfold insertByIdx
    split_ifs with hlt
    · rw [List.pairwise_cons]
      constructor
      · intro x hx
        rcases List.mem_cons.mp hx with rfl | hxt
        · exact Nat.le_of_lt hlt
        · exact Nat.le_trans (Nat.le_of_lt hlt) (h.1 x hxt)
      · exact List.Pairwise.cons h.1 h.2
    · rw [List.pairwise_cons]
      constructor
      · intro x hx
        rcases List.mem_cons.mp ((insertByIdx_perm m t).mem_iff.mp hx) with h1 | hxt
        · rw [h1]
          exact Nat.le_of_not_lt hlt
        · exact h.1 x hxt
      · exact ih h.2

theorem sortMembers_perm (l : List (Nat × Val)) : (sortMembers l).Perm l := by
  suffices h : ∀ acc : List (Nat × Val),
      (l.foldl (fun acc m => insertByIdx m acc) acc).Perm (acc ++ l) by
    simpa using h []
  induction l with
  | nil => intro acc; simp
  | cons m t ih =>
    intro acc
    simp only [List.foldl_cons]
    refine (ih (insertByIdx m acc)).trans ?_
    have h1 : (insertByIdx m acc ++ t).Perm ((m :: acc) ++ t) :=
      (insertByIdx_perm m acc).append_right t
    refine h1.trans ?_
    simpa using List.perm_middle.symm

theorem sortMembers_sorted (l : List (Nat × Val)) :
    (sortMembers l).Pairwise (fun a b => a.1 ≤ b.1) := by
  suffices h : ∀ acc : List (Nat × Val), acc.Pairwise (fun a b => a.1 ≤ b.1) →
      (l.foldl (fun acc m => insertByIdx m acc) acc).Pairwise (fun a b => a.1 ≤ b.1) from
    h [] (by simp)
  induction l with
  | nil => intro acc hacc; exact hacc
  | cons m t ih =>
    intro acc hacc
    simp only [List.foldl_cons]
    exact ih _ (insertByIdx_sorted m acc hacc)

theorem collectMembers_mem_iff (stem : String) (kwargs : List (String × Val))
    (i : Nat) (v : Val) :
    (i, v) ∈ collectMembers stem kwargs ↔
      ∃ key : String, (key, v) ∈ kwargs ∧ matchMemberKey stem key = some i ∧
        isNoneVal v = false ∧ eqEmptyStrVal v = false := by
  unfold collectMembers
  rw [List.mem_filterMap]
  constructor
  · rintro ⟨kv, hmem, hf⟩
    cases hm : matchMemberKey stem kv.1 with
    | none => rw [hm] at hf; exact Option.noConfusion hf
    | some j =>
      rw [hm] at hf
      dsimp only at hf
      by_cases hskip : (isNoneVal kv.2 || eqEmptyStrVal kv.2) = true
      · rw [if_pos hskip] at hf
        exact Option.noConfusion hf
      · rw [if_neg hskip] at hf
        have hji := Prod.mk.inj (Option.some.inj hf)
        rw [Bool.or_eq_true] at hskip
        push_neg at hskip
        refine ⟨kv.1, ?_, ?_, ?_, ?_⟩
        · rw [← hji.2]
          exact hmem
        · rw [hm, hji.1]
        · rw [← hji.2]
          exact Bool.not_eq_true _ ▸ hskip.1
        · rw [← hji.2]
          exact Bool.not_eq_true _ ▸ hskip.2
  · rintro ⟨key, hmem, hm, hn, he⟩
    refine ⟨(key, v), hmem, ?_⟩
    show (match matchMemberKey stem key with
      | some j => if isNoneVal v || eqEmptyStrVal v then none else some (j, v)
      | none => none) = some (i, v)
    rw [hm]
    dsimp only
    rw [if_neg (by simp [hn, he])]

/-- Claim C4 counterexample: with a declared number-item array parameter
seeds, the member with raw value zero coerces to zero, which is falsy and is
dropped by the conversion loop, so the final array is not the concatenation
of all coerced members that the claim requires. -/
theorem array_member_zero_dropped_cx :
    mergeArrayMembers (fun _ => none) "number" "seed"
        [("seed_0", Val.vint 0), ("seed_1", Val.vint 5)] = [Val.vint 5] ∧
    ¬ mergeArrayMembers (fun _ => none) "number" "seed"
        [("seed_0", Val.vint 0), ("seed_1", Val.vint 5)] = [Val.vint 0, Val.vint 5] := by
  refine ⟨rfl, ?_⟩
  intro h
  rw [show mergeArrayMembers (fun _ => none) "number" "seed"
      [("seed_0", Val.vint 0), ("seed_1", Val.vint 5)] = [Val.vint 5] from rfl] at h
  have hlen := congrArg List.length h
  simp at hlen

/-- Claim C4 amended: array reconstruction collects exactly the connected
inputs whose key is the singular stem, an optional underscore and a decimal
index, skipping null and empty-string raw values, sorts them stably by index
ascending, and then appends per member the uploaded URL (tensor) or the
coerced value, with a falsy coerced value (such as numeric zero) dropped
rather than appended; the mixed-convention example still yields the two URLs
in index order. -/
theorem array_reconstruction_amended :
    (∀ (upload : Nat → Option String) (itemType stem : String)
        (kwargs : List (String × Val)),
      mergeArrayMembers upload itemType stem kwargs =
        (sortMembers (collectMembers stem kwargs)).filterMap
          (memberPick upload itemType)) ∧
    (∀ l : List (Nat × Val),
      (sortMembers l).Perm l ∧ (sortMembers l).Pairwise (fun a b => a.1 ≤ b.1)) ∧
    (∀ (stem key : String) (i : Nat), matchMemberKey stem key = some i ↔
      ∃ ds : List Char, ds ≠ [] ∧ ds.all Char.isDigit = true ∧ digitsToNat ds = i ∧
        (key.toList = stem.toList ++ ds ∨ key.toList = stem.toList ++ '_' :: ds)) ∧
    (∀ (stem : String) (kwargs : List (String × Val)) (i : Nat) (v : Val),
      (i, v) ∈ collectMembers stem kwargs ↔
        ∃ key : String, (key, v) ∈ kwargs ∧ matchMemberKey stem key = some i ∧
          isNoneVal v = false ∧ eqEmptyStrVal v = false) ∧
    assemble (fun _ => none) [("images", ⟨true, "string"⟩)] []
        [("image_0", Val.vstr "urlA"), ("image1", Val.vstr "urlB")] =
      .ok [("images", Val.vlist [Val.vstr "urlA", Val.vstr "urlB"]),
        ("image1", Val.vstr "urlB")] := by
  refine ⟨?_, ?_, matchMemberKey_eq_some, collectMembers_mem_iff, by rfl⟩
  · intro upload itemType stem kwargs
    unfold mergeArrayMembers
    rw [foldl_memberStep_filterMap]
    simp
  · intro l
    exact ⟨sortMembers_perm l, sortMembers_sorted l⟩

/- ## Claim C8 -/

theorem mergeConnected_eq_foldl_filter (arrayNames : List String)
    (kwargs : List (String × Val)) :
    ∀ req : List (String × Val),
      mergeConnected arrayNames req kwargs =
        (kwargs.filter (fun kv => !(arraySkipKey arrayNames kv.1) &&
          !(isNoneVal kv.2) && !(eqEmptyStrVal kv.2))).foldl
          (fun m kv => dictSet m kv.1 kv.2) req := by
  induction kwargs with
  | nil => intro req; rfl
  | cons kv t ih =>
    intro req
    simp only [mergeConnected] at ih ⊢
    rw [List.foldl_cons, List.filter_cons]
    cases hskip : arraySkipKey arrayNames kv.1 with
    | true =>
      rw [show mergeStep arrayNames req kv = req by simp [mergeStep, hskip]]
      rw [if_neg (by simp [hskip])]
      exact ih req
    | false =>
      cases hnone : isNoneVal kv.2 with
      | true =>
        rw [show mergeStep arrayNames req kv = req by simp [mergeStep, hskip, hnone]]
        rw [if_neg (by simp [hskip, hnone])]
        exact ih req
      | false =>
        cases hemp : eqEmptyStrVal kv.2 with
        | true =>
          rw [show mergeStep arrayNames req kv = req by
            simp [mergeStep, hskip, hnone, hemp]]
          rw [if_neg (by simp [hskip, hnone, hemp])]
          exact ih req
        | false =>
          rw [show mergeStep arrayNames req kv = dictSet req kv.1 kv.2 by
            simp [mergeStep, hskip, hnone, hemp]]
          rw [if_pos (by simp [hskip, hnone, hemp]), List.foldl_cons]
          exact ih _

theorem arraySkipKey_iff (names : List String) (k : String) :
    arraySkipKey names k = true ↔ ∃ an ∈ names, ∃ t : List Char,
      k.toList = (rstripAllS an ++ "_").toList ++ t := by
  unfold arraySkipKey strStartsWith
  rw [List.any_eq_true]
  constructor
  · rintro ⟨an, han, hp⟩
    obtain ⟨t, ht⟩ := (isPrefixChars_iff _ _).mp hp
    exact ⟨an, han, t, ht⟩
  · rintro ⟨an, han, t, ht⟩
    exact ⟨an, han, (isPrefixChars_iff _ _).mpr ⟨t, ht⟩⟩

/-- Claim C8 counterexample: a connected input named image1, consumed as an
array member of the declared parameter images, still appears as a standalone
field in the final payload, because the merge-step skip test only recognizes
the underscored naming convention. -/
theorem array_member_leaks_standalone_cx :
    assemble (fun _ => none) [("images", ⟨true, "string"⟩)] []
        [("image_0", Val.vstr "urlA"), ("image1", Val.vstr "urlB")] =
      .ok [("images", Val.vlist [Val.vstr "urlA", Val.vstr "urlB"]),
        ("image1", Val.vstr "urlB")] ∧
    dictHasKey [("images", Val.vlist [Val.vstr "urlA", Val.vstr "urlB"]),
        ("image1", Val.vstr "urlB")] "image1" = true ∧
    arraySkipKey ["images"] "image1" = false := by
  exact ⟨by rfl, by rfl, by rfl⟩

/-- Claim C8 amended: the merge starts from the defaults and overlays the
connected inputs in order, skipping exactly those whose name starts with an
array parameter name stripped of every trailing s followed by an underscore,
and otherwise overwriting the default unless the connected value is None or
the empty string; members recognized only under the no-underscore convention
are not skipped and appear as standalone fields. -/
theorem merge_overlay_amended :
    (∀ (arrayNames : List String) (kwargs req : List (String × Val)),
      mergeConnected arrayNames req kwargs =
        (kwargs.filter (fun kv => !(arraySkipKey arrayNames kv.1) &&
          !(isNoneVal kv.2) && !(eqEmptyStrVal kv.2))).foldl
          (fun m kv => dictSet m kv.1 kv.2) req) ∧
    (∀ (names : List String) (k : String), arraySkipKey names k = true ↔
      ∃ an ∈ names, ∃ t : List Char,
        k.toList = (rstripAllS an ++ "_").toList ++ t) ∧
    mergeConnected [] [("prompt", Val.vstr "x")] [("prompt", Val.vstr "")] =
      [("prompt", Val.vstr "x")] ∧
    mergeConnected [] [("prompt", Val.vstr "x")] [("prompt", Val.vnull)] =
      [("prompt", Val.vstr "x")] ∧
    mergeConnected [] [("prompt", Val.vstr "x")] [("prompt", Val.vstr "y")] =
      [("prompt", Val.vstr "y")] ∧
    mergeConnected ["images"] [] [("image_0", Val.vstr "urlA")] = [] ∧
    mergeConnected ["images"] [] [("image1", Val.vstr "urlB")] =
      [("image1", Val.vstr "urlB")] := by
  exact ⟨fun names kwargs req => mergeConnected_eq_foldl_filter names kwargs req,
    arraySkipKey_iff, rfl, rfl, rfl, rfl, rfl⟩

/- ## Claim C7 -/

/-- Claim C7: evaluation at the failing input.  Every tensor-valued connected
input, including an array member such as image_0, is uploaded by the step 1.5
pass, whose failure raises a value error naming the field and aborts the
whole assembly; the per-member skip logic of the step 2a conversion loop
(second conjunct, evaluated in isolation) would skip the failing member and
keep the rest, but kwargs tensors never reach it, so the claimed member-level
tolerance does not hold of the assembled pipeline.  The third conjunct shows
the scalar half of the claim: a failing scalar tensor aborts with an error
naming its field. -/
theorem upload_failure_scoping_divergence :
    assemble (fun t => if t = 0 then none else some "https://cdn/u1")
        [("images", ⟨true, "string"⟩)] []
        [("image_0", Val.vtensor 0), ("image_1", Val.vtensor 1)] =
      .error "Failed to upload tensor for \x27image_0\x27" ∧
    mergeArrayMembers (fun t => if t = 0 then none else some "https://cdn/u1")
        "string" "image" [("image_0", Val.vtensor 0), ("image_1", Val.vtensor 1)] =
      [Val.vstr "https://cdn/u1"] ∧
    assemble (fun t => if t = 0 then none else some "https://cdn/u1")
        [] [] [("source_image", Val.vtensor 0)] =
      .error "Failed to upload tensor for \x27source_image\x27" := by
  exact ⟨rfl, rfl, rfl⟩

/- ## Claim C9 -/

/-- Claim C9 counterexample: with no runtime key, a config-file key and a
different environment key, resolution returns the environment key, not the
config-file key the claim requires. -/
theorem credential_env_over_config_cx :
    get_effective_api_key none (some "env-key") (some "config-key") = some "env-key" ∧
    ¬ get_effective_api_key none (some "env-key") (some "config-key") =
        some "config-key" := by
  exact ⟨rfl, by decide⟩

/-- Claim C9 amended: credential resolution follows the precedence runtime
key, then environment variable, then persisted config key; with no runtime
key, a config key present and a different environment key, resolution
returns the environment key; and when no tier yields a key the upload path
returns the distinct no-credential error whatever the network would have
answered, so the absence surfaces before any network call. -/
theorem credential_resolution_amended :
    (∀ r e c : Option String, get_effective_api_key r e c =
      if pyTruthyKey r then r
      else if pyTruthyKey e then e
      else if pyTruthyKey c then c
      else none) ∧
    get_effective_api_key (some "rt-key") (some "env-key") (some "config-key") =
      some "rt-key" ∧
    get_effective_api_key none (some "env-key") (some "config-key") =
      some "env-key" ∧
    get_effective_api_key none none (some "config-key") = some "config-key" ∧
    get_effective_api_key none none none = none ∧
    (∀ e c net : Option String, get_api_key_from_config e c = none →
      upload_bytes_to_wavespeed e c net =
        .error "No API key configured. Please configure your WaveSpeed API key.") := by
  refine ⟨fun r e c => rfl, rfl, rfl, rfl, rfl, ?_⟩
  intro e c net h
  unfold upload_bytes_to_wavespeed
  rw [h]
  rfl
